import Mathlib

/-!
Verification of the CompareTimes benchmark harness (src/main.rs).

The Rust program defines five intersection strategies (`Squared`,
`SquaredBreak`, `BTree`, `Binary`, `Hash`) over `&[usize]` slices, a
measurement runner `test_method`, a table/graph reporter, and a `main`
orchestrator that times every strategy on a randomly generated pair of
collections and checks the results for equality.

We embed the element type `usize` as `Nat` (only equality and order are
used, so overflow never arises), slices as `List Nat`, and `Duration`
values as nanosecond counts (`Nat`).  Rayon parallel iterators
(`par_iter().filter(..).collect()`, `flat_map_iter`) preserve the order
of the source iterator in `collect`, so they are embedded as their
sequential `List` counterparts.  A Rust panic (from `unwrap`) is
embedded as `none`.
-/

namespace CompareTimes

/-- The five unit-struct strategy types of the source, as one inductive;
the source holds them as `Box<dyn Intersect>` values. -/
inductive Strategy where
  | Squared
  | SquaredBreak
  | BTree
  | Binary
  | Hash
deriving DecidableEq

/-- Rust `format!("{:?}", method)` on the unit structs prints the type name. -/
def Strategy.name : Strategy → String
  | .Squared => "Squared"
  | .SquaredBreak => "SquaredBreak"
  | .BTree => "BTree"
  | .Binary => "Binary"
  | .Hash => "Hash"

/-- The `struct Product { name, time, result }` record; `time: Duration` is embedded
as its nanosecond count. -/
structure Product where
  name : String
  time : Nat
  result : List Nat
deriving DecidableEq

/-- Embedding of `Squared::intersect`: `big.par_iter().flat_map_iter(|i|
small.iter().zip(repeat(i))).filter(|(i, j)| *i == *j).map(|(i, _)| *i)
.collect()` — for each element `i` of `big`, emit every element of
`small` equal to it. -/
def Squared.intersect (big small : List Nat) : List Nat :=
  big.flatMap fun i => small.filter fun j => j == i

/-- Embedding of `SquaredBreak::intersect`: keep each element of `big` for which
`small.par_iter().find_any(|j| j == i).is_some()`; `find_any` returns
some match iff one exists, i.e. iff `small` contains the element. -/
def SquaredBreak.intersect (big small : List Nat) : List Nat :=
  big.filter fun i => small.contains i

/-- A `BTreeSet` insertion: keep the set as a strictly sorted list. -/
def btreeInsert (v : Nat) : List Nat → List Nat
  | [] => [v]
  | x :: xs =>
    if v < x then v :: x :: xs
    else if v == x then x :: xs
    else x :: btreeInsert v xs

/-- Embedding of `BTreeSet::from_iter(small)`: insert every element in turn. -/
def btreeFromIter (xs : List Nat) : List Nat :=
  xs.foldl (fun s v => btreeInsert v s) []

/-- Embedding of `BTree::intersect`: build a `BTreeSet` from `small`, keep the
elements of `big` the set contains. -/
def BTree.intersect (big small : List Nat) : List Nat :=
  let smallSet := btreeFromIter small
  big.filter fun i => smallSet.contains i

/-- Embedding of `slice::binary_search` on the half-open range `[lo, hi)`:
`mid = lo + (hi - lo) / 2`, descend left or right by comparison, `true`
on a hit (`Ok`), `false` when the range empties (`Err`). -/
def binarySearchRange (xs : List Nat) (t : Nat) (lo hi : Nat) : Bool :=
  if _h : lo < hi then
    if xs.getD (lo + (hi - lo) / 2) 0 < t then
      binarySearchRange xs t (lo + (hi - lo) / 2 + 1) hi
    else if t < xs.getD (lo + (hi - lo) / 2) 0 then
      binarySearchRange xs t lo (lo + (hi - lo) / 2)
    else true
  else false
termination_by hi - lo
decreasing_by
  all_goals omega

/-- Embedding of `small.binary_search(i).is_ok()` over the whole slice. -/
def binary_search (xs : List Nat) (t : Nat) : Bool :=
  binarySearchRange xs t 0 xs.length

/-- Embedding of `Binary::intersect`: sort a copy of `small` (`slice::sort`, a stable
merge sort), keep the elements of `big` that binary-search finds. -/
def Binary.intersect (big small : List Nat) : List Nat :=
  let sortedSmall := small.mergeSort fun a b => a ≤ b
  big.filter fun i => binary_search sortedSmall i

/-- A `HashSet` insertion: a list without duplicates, new elements in
front. -/
def hashInsert (s : List Nat) (v : Nat) : List Nat :=
  if s.contains v then s else v :: s

/-- Embedding of `small.iter().copied().collect::<HashSet<usize>>()`. -/
def hashFromIter (xs : List Nat) : List Nat :=
  xs.foldl hashInsert []

/-- Embedding of `Hash::intersect`: build a `HashSet` from `small`, keep the elements
of `big` the set contains. -/
def Hash.intersect (big small : List Nat) : List Nat :=
  let smallSet := hashFromIter small
  big.filter fun i => smallSet.contains i

/-- Dynamic dispatch of `method.intersect(a, b)` over the five
strategies. -/
def Strategy.intersect : Strategy → List Nat → List Nat → List Nat
  | .Squared => Squared.intersect
  | .SquaredBreak => SquaredBreak.intersect
  | .BTree => BTree.intersect
  | .Binary => Binary.intersect
  | .Hash => Hash.intersect

/-- Embedding of `SystemTime::duration_since`: `Err` (then `none`) when the clock went
backwards, otherwise the elapsed nanoseconds. -/
def duration_since (now earlier : Nat) : Option Nat :=
  if now < earlier then none else some (now - earlier)

/-- Embedding of `test_method(method, a, b, appendage)`: name is
`format!("{:?}{}", method, appendage)`; the `.unwrap()` on
`duration_since` panics (`none`) when the delta is negative. -/
def test_method (method : Strategy) (a b : List Nat) (appendage : String)
    (start now : Nat) : Option Product :=
  (duration_since now start).map fun time =>
    { name := method.name ++ appendage
      time := time
      result := method.intersect a b }

/-- The array of boxed methods built at the top of `main`, in source
order. -/
def methods : List Strategy :=
  [.Squared, .SquaredBreak, .BTree, .Binary, .Hash]

/-- The ten (method, first argument, second argument, appendage) tuples
`main` fans out over: `big = max_by_key(&a, &b, |x| x.len())` (Rust's
`max_by_key` returns its second argument on ties), `small = min_by_key`
(first argument on ties), and every method contributes `(big, small,
"")` and `(small, big, " switched order")`. -/
def tasks (a b : List Nat) : List (Strategy × List Nat × List Nat × String) :=
  let big := if b.length < a.length then a else b
  let small := if b.length < a.length then b else a
  methods.flatMap fun method =>
    [(method, big, small, ""), (method, small, big, " switched order")]

/-- Run the tasks in order, the i-th task receiving the (start, now)
timestamps its two `SystemTime::now()` calls observe. -/
def withClock (clock : Nat → Nat × Nat) :
    Nat → List (Strategy × List Nat × List Nat × String) → List (Option Product)
  | _, [] => []
  | i, (m, x, y, app) :: rest =>
    test_method m x y app (clock i).1 (clock i).2 :: withClock clock (i + 1) rest

/-- Rayon's `collect()` over the measurement map: a panic in any worker
(`none`) propagates and aborts the whole collection. -/
def collectOrPanic : List (Option Product) → Option (List Product)
  | [] => some []
  | none :: _ => none
  | some x :: rest => (collectOrPanic rest).map fun l => x :: l

/-- The measurement phase of `main`: the ten `test_method` invocations
over `tasks a b`, timestamps supplied by `clock`. -/
def runBenchmark (a b : List Nat) (clock : Nat → Nat × Nat) : Option (List Product) :=
  collectOrPanic (withClock clock 0 (tasks a b))

/-- The final check in `main`:
`products.windows(2).all(|values| values[0].result == values[1].result)`
(windows over fewer than two products yield no window, hence `true`). -/
def all_results_equal : List Product → Bool
  | x :: y :: rest => (x.result == y.result) && all_results_equal (y :: rest)
  | _ => true

/-- Rust `Duration`'s Debug formatting, restricted to sub-microsecond
values, which render as `"<n>ns"` (the formatter lives in Rust's std,
outside this repository; the claims only exercise nanosecond-range
durations). -/
def fmtDuration (ns : Nat) : String := toString ns ++ "ns"

/-- Round `num / den` to a whole number of hundredths, ties to even —
the rounding Rust's `{:.2}` applies to an exactly representable `f64`
quotient.  The source divides `u128` nanosecond counts as `f64`; this
model computes the same hundredths wherever the double rounding
(quotient, then decimal) is exact, which covers every value the claims
test. -/
def roundHundredths (num den : Nat) : Nat :=
  let scaled := num * 100
  let q := scaled / den
  let r := scaled % den
  if den < 2 * r then q + 1
  else if 2 * r < den then q
  else if q % 2 = 0 then q else q + 1

/-- Two-digit zero-padded decimal fragment. -/
def pad2 (n : Nat) : String :=
  if n < 10 then "0" ++ toString n else toString n

/-- Embedding of `format!("{:.2}", num as f64 / den as f64)`. -/
def fmt2 (num den : Nat) : String :=
  let h := roundHundredths num den
  toString (h / 100) ++ "." ++ pad2 (h % 100)

/-- The header row added first in `print_table`. -/
def headerRow : List String :=
  ["Name", "Time taken", "times faster than previous",
   "Absolute time difference", "percent of previous time", "Compared to"]

/-- The `products.windows(2)` loop of `print_table`: one row per
adjacent pair, showing `values[0].time / values[1].time` as `"<q>x"`,
the absolute difference, and `values[1]/values[0] * 100` as `"<p>%"`
(`Duration` subtraction embedded as truncating `Nat` subtraction; `main`
sorts descending before calling, so it never underflows there). -/
def windowRows : List Product → List (List String)
  | x :: y :: rest =>
    [y.name, fmtDuration y.time, fmt2 x.time y.time ++ "x",
     fmtDuration (x.time - y.time), fmt2 (y.time * 100) x.time ++ "%",
     x.name] :: windowRows (y :: rest)
  | _ => []

/-- The rows `print_table` adds, in order: header, the `products[0]` row
(dashes in every comparison column), one row per window, and the Total
row (duration sum, `first.time / last.time`, their difference, and
`last/first * 100`).  `products[0]` and `.last().unwrap()` panic
(`none`) on an empty list. -/
def print_table_rows (products : List Product) : Option (List (List String)) :=
  match products with
  | [] => none
  | p0 :: rest =>
    let lastP := (p0 :: rest).getLast (List.cons_ne_nil p0 rest)
    some (headerRow
      :: [p0.name, fmtDuration p0.time, "-", "-", "-", "-"]
      :: (windowRows (p0 :: rest)
      ++ [["Total", fmtDuration (((p0 :: rest).map Product.time).sum),
           fmt2 p0.time lastP.time ++ "x", fmtDuration (p0.time - lastP.time),
           fmt2 (lastP.time * 100) p0.time ++ "%", "-"]]))

/-- The width computation opening `print_graph`:
`(size().unwrap().0 as usize - max_name_len - 2)`.  `size().unwrap()`
panics (`none`) when the terminal size is unavailable, and
`max().unwrap()` panics on an empty product list; the remaining
bar-drawing arithmetic is `f64::ln` and is not modelled. -/
def print_graph_width (termCols : Option Nat) (products : List Product) : Option Nat :=
  match (products.map fun p => p.name.length).max?, termCols with
  | some maxNameLen, some cols => some (cols - maxNameLen - 2)
  | _, _ => none

/-! ## Helper lemmas -/

theorem contains_iff {l : List Nat} {v : Nat} : l.contains v = true ↔ v ∈ l := by
  simp [List.contains]

theorem mem_btreeInsert {w v : Nat} {s : List Nat} :
    w ∈ btreeInsert v s ↔ w = v ∨ w ∈ s := by
  induction s with
  | nil => simp [btreeInsert]
  | cons x xs ih =>
    simp only [btreeInsert]
    split
    · simp [List.mem_cons]
    · split
      next hlt heq =>
        have hvx : v = x := by simpa using heq
        subst hvx
        simp only [List.mem_cons]
        tauto
      next hlt heq =>
        simp only [List.mem_cons, ih]
        tauto

theorem mem_btreeFromIter_aux {w : Nat} (xs acc : List Nat) :
    w ∈ xs.foldl (fun s v => btreeInsert v s) acc ↔ w ∈ xs ∨ w ∈ acc := by
  induction xs generalizing acc with
  | nil => simp
  | cons x xs ih =>
    simp only [List.foldl_cons, ih, mem_btreeInsert, List.mem_cons]
    tauto

theorem mem_btreeFromIter {w : Nat} (xs : List Nat) :
    w ∈ btreeFromIter xs ↔ w ∈ xs := by
  simpa [btreeFromIter] using mem_btreeFromIter_aux xs []

theorem mem_hashInsert {w v : Nat} {s : List Nat} :
    w ∈ hashInsert s v ↔ w = v ∨ w ∈ s := by
  unfold hashInsert
  split
  next h =>
    have hv : v ∈ s := contains_iff.mp h
    constructor
    · tauto
    · rintro (rfl | hw)
      · exact hv
      · exact hw
  next h =>
    simp only [List.mem_cons]

theorem mem_hashFromIter_aux {w : Nat} (xs acc : List Nat) :
    w ∈ xs.foldl hashInsert acc ↔ w ∈ xs ∨ w ∈ acc := by
  induction xs generalizing acc with
  | nil => simp
  | cons x xs ih =>
    simp only [List.foldl_cons, ih, mem_hashInsert, List.mem_cons]
    tauto

theorem mem_hashFromIter {w : Nat} (xs : List Nat) :
    w ∈ hashFromIter xs ↔ w ∈ xs := by
  simpa [hashFromIter] using mem_hashFromIter_aux xs []

theorem sorted_getD_mono {xs : List Nat} (hs : List.Pairwise (· ≤ ·) xs)
    {i j : Nat} (hij : i ≤ j) (hj : j < xs.length) :
    xs.getD i 0 ≤ xs.getD j 0 := by
  have hi : i < xs.length := Nat.lt_of_le_of_lt hij hj
  rw [List.getD_eq_getElem xs 0 hi, List.getD_eq_getElem xs 0 hj]
  rcases Nat.eq_or_lt_of_le hij with rfl | hlt
  · exact Nat.le_refl _
  · exact List.pairwise_iff_getElem.mp hs i j hi hj hlt

theorem binarySearchRange_true_iff (xs : List Nat) (t : Nat)
    (hs : List.Pairwise (· ≤ ·) xs) :
    ∀ lo hi, hi ≤ xs.length →
      (∀ i, i < lo → i < xs.length → xs.getD i 0 < t) →
      (∀ i, hi ≤ i → i < xs.length → t < xs.getD i 0) →
      (binarySearchRange xs t lo hi = true ↔ t ∈ xs) := by
  intro lo hi
  induction lo, hi using binarySearchRange.induct xs t with
  | case1 lo hi h hv ih =>
    intro hhi hlow hhigh
    rw [binarySearchRange, dif_pos h, if_pos hv]
    refine ih hhi ?_ hhigh
    intro i hi1 hi2
    have hmid : lo + (hi - lo) / 2 < xs.length := by omega
    exact Nat.lt_of_le_of_lt (sorted_getD_mono hs (by omega) hmid) hv
  | case2 lo hi h hv hv2 ih =>
    intro hhi hlow hhigh
    rw [binarySearchRange, dif_pos h, if_neg hv, if_pos hv2]
    refine ih (by omega) hlow ?_
    intro i hi1 hi2
    exact Nat.lt_of_lt_of_le hv2 (sorted_getD_mono hs hi1 hi2)
  | case3 lo hi h hv hv2 =>
    intro hhi hlow hhigh
    rw [binarySearchRange, dif_pos h, if_neg hv, if_neg hv2]
    refine ⟨fun _ => ?_, fun _ => rfl⟩
    have hmid : lo + (hi - lo) / 2 < xs.length := by omega
    have heq : xs.getD (lo + (hi - lo) / 2) 0 = t := by omega
    rw [List.getD_eq_getElem xs 0 hmid] at heq
    exact heq ▸ List.getElem_mem hmid
  | case4 lo hi h =>
    intro hhi hlow hhigh
    rw [binarySearchRange, dif_neg h]
    constructor
    · intro hfalse
      exact absurd hfalse (by simp)
    · intro hmem
      exfalso
      obtain ⟨n, hn, rfl⟩ := List.mem_iff_getElem.mp hmem
      by_cases hnlo : n < lo
      · have := hlow n hnlo hn
        rw [List.getD_eq_getElem xs 0 hn] at this
        omega
      · have := hhigh n (by omega) hn
        rw [List.getD_eq_getElem xs 0 hn] at this
        omega

theorem pairwise_le_mergeSort (small : List Nat) :
    List.Pairwise (· ≤ ·) (small.mergeSort fun a b => a ≤ b) := by
  have h := @List.sorted_mergeSort Nat (fun a b : Nat => decide (a ≤ b))
    (fun a b c hab hbc => by
      simp only [decide_eq_true_eq] at *
      omega)
    (fun a b => by
      simp only [Bool.or_eq_true, decide_eq_true_eq]
      omega)
    small
  exact h.imp (by simp)

theorem mem_sortedSmall (small : List Nat) (v : Nat) :
    v ∈ small.mergeSort (fun a b => a ≤ b) ↔ v ∈ small :=
  List.mem_mergeSort

theorem binary_search_true_iff {xs : List Nat} (hs : List.Pairwise (· ≤ ·) xs)
    (t : Nat) : binary_search xs t = true ↔ t ∈ xs := by
  refine binarySearchRange_true_iff xs t hs 0 xs.length (Nat.le_refl _) ?_ ?_
  · intro i hi _
    omega
  · intro i hi hlen
    omega

theorem mem_Squared_intersect (big small : List Nat) (v : Nat) :
    v ∈ Squared.intersect big small ↔ v ∈ big ∧ v ∈ small := by
  simp only [Squared.intersect, List.mem_flatMap, List.mem_filter, beq_iff_eq]
  constructor
  · rintro ⟨i, hib, hvs, rfl⟩
    exact ⟨hib, hvs⟩
  · rintro ⟨hb, hsm⟩
    exact ⟨v, hb, hsm, rfl⟩

theorem mem_SquaredBreak_intersect (big small : List Nat) (v : Nat) :
    v ∈ SquaredBreak.intersect big small ↔ v ∈ big ∧ v ∈ small := by
  simp only [SquaredBreak.intersect, List.mem_filter]
  rw [contains_iff]

theorem mem_BTree_intersect (big small : List Nat) (v : Nat) :
    v ∈ BTree.intersect big small ↔ v ∈ big ∧ v ∈ small := by
  simp only [BTree.intersect, List.mem_filter]
  rw [contains_iff, mem_btreeFromIter]

theorem mem_Binary_intersect (big small : List Nat) (v : Nat) :
    v ∈ Binary.intersect big small ↔ v ∈ big ∧ v ∈ small := by
  simp only [Binary.intersect, List.mem_filter]
  rw [binary_search_true_iff (pairwise_le_mergeSort small), mem_sortedSmall]

theorem mem_Hash_intersect (big small : List Nat) (v : Nat) :
    v ∈ Hash.intersect big small ↔ v ∈ big ∧ v ∈ small := by
  simp only [Hash.intersect, List.mem_filter]
  rw [contains_iff, mem_hashFromIter]

theorem count_filter_beq (small : List Nat) (i v : Nat) :
    (small.filter fun j => j == i).count v =
      if v = i then small.count v else 0 := by
  by_cases h : v = i
  · subst h
    rw [if_pos rfl]
    exact List.count_filter (by simp)
  · rw [if_neg h, List.count_eq_zero]
    simp only [List.mem_filter, beq_iff_eq, not_and]
    intro _ hvi
    exact h hvi

theorem count_filter_pred (big : List Nat) (p : Nat → Bool) (v : Nat) :
    (big.filter p).count v = if p v then big.count v else 0 := by
  induction big with
  | nil => simp
  | cons x xs ih =>
    rw [List.filter_cons]
    by_cases hvx : v = x
    · subst hvx
      by_cases hx : p v
      · rw [if_pos hx, List.count_cons, ih, List.count_cons]
        simp [hx]
      · rw [if_neg hx, ih]
        simp [hx]
    · have hxv : x ≠ v := fun h => hvx h.symm
      by_cases hx : p x
      · rw [if_pos hx, List.count_cons, ih, List.count_cons]
        simp [hxv]
      · rw [if_neg hx, ih, List.count_cons]
        simp [hxv]

theorem contains_eq_decide (l : List Nat) (v : Nat) :
    l.contains v = decide (v ∈ l) := by
  simp [List.contains]

theorem squared_cons (x : Nat) (xs small : List Nat) :
    Squared.intersect (x :: xs) small =
      (small.filter fun j => j == x) ++ Squared.intersect xs small := rfl

theorem binary_search_nil (t : Nat) : binary_search [] t = false := by
  rw [binary_search]
  rw [binarySearchRange]
  simp

/-! ## Claim theorems -/

/-- C1: for every pair of input collections `big` and `small`, each of
the five strategies (Squared, SquaredBreak, BTree, Binary, Hash), when
its `intersect(big, small)` result is interpreted as a set, equals the
mathematical intersection `{x : x ∈ big ∧ x ∈ small}`. -/
theorem every_strategy_computes_set_intersection (s : Strategy)
    (big small : List Nat) (v : Nat) :
    v ∈ s.intersect big small ↔ v ∈ big ∧ v ∈ small := by
  cases s
  · exact mem_Squared_intersect big small v
  · exact mem_SquaredBreak_intersect big small v
  · exact mem_BTree_intersect big small v
  · exact mem_Binary_intersect big small v
  · exact mem_Hash_intersect big small v

/-- C7: for every strategy, if either input collection is empty then
`intersect` returns an empty result collection, without any error or
fault. -/
theorem empty_input_gives_empty_result (s : Strategy) (l : List Nat) :
    s.intersect [] l = [] ∧ s.intersect l [] = [] := by
  have hnil : ∀ i : Nat, ([] : List Nat).contains i = false := fun i => rfl
  cases s <;> constructor
  · rfl
  · simp [Strategy.intersect, Squared.intersect]
  · rfl
  · simp [Strategy.intersect, SquaredBreak.intersect, hnil]
  · rfl
  · simp [Strategy.intersect, BTree.intersect, btreeFromIter, hnil]
  · rfl
  · simp [Strategy.intersect, Binary.intersect, binary_search_nil]
  · rfl
  · simp [Strategy.intersect, Hash.intersect, hashFromIter, hnil]

/-- C4: the Squared strategy (nested scan without early exit) emits one
output element per matching (outer, inner) pair: each value `v` occurs
in `Squared.intersect big small` exactly
`count v big * count v small` times; in particular inputs `[2, 2]` and
`[2]` yield two emissions of `2`. -/
theorem squared_emits_one_per_pair :
    (∀ big small : List Nat, ∀ v : Nat,
      (Squared.intersect big small).count v = big.count v * small.count v)
    ∧ Squared.intersect [2, 2] [2] = [2, 2] := by
  constructor
  · intro big small v
    induction big with
    | nil => simp [Squared.intersect]
    | cons x xs ih =>
      rw [squared_cons, List.count_append, count_filter_beq, ih, List.count_cons]
      by_cases h : v = x
      · subst h
        simp
        ring
      · simp [Ne.symm h, h]
  · rfl

/-- C8: the SquaredBreak strategy emits at most one output element per
element of the outer collection: each value `v` occurs in
`SquaredBreak.intersect big small` exactly `count v big` times if `v`
is present in `small`, and zero times otherwise. -/
theorem squaredBreak_emits_one_per_outer (big small : List Nat) (v : Nat) :
    (SquaredBreak.intersect big small).count v =
      if v ∈ small then big.count v else 0 := by
  rw [SquaredBreak.intersect, count_filter_pred]
  by_cases h : v ∈ small
  · rw [if_pos (contains_iff.mpr h), if_pos h]
  · rw [if_neg (fun hc => h (contains_iff.mp hc)), if_neg h]

/-- C10: for every pair of inputs, the SquaredBreak, BTree, Binary and
Hash strategies return exactly the same result vector — the subsequence
of `big` whose elements are also present in `small`, preserving order
and multiplicity — so the four are pairwise equal even under raw
comparison. -/
theorem deduplicating_strategies_agree_raw (big small : List Nat) :
    SquaredBreak.intersect big small = big.filter (fun v => decide (v ∈ small))
    ∧ BTree.intersect big small = SquaredBreak.intersect big small
    ∧ Binary.intersect big small = SquaredBreak.intersect big small
    ∧ Hash.intersect big small = SquaredBreak.intersect big small := by
  refine ⟨?_, ?_, ?_, ?_⟩
  · rw [SquaredBreak.intersect]
    exact List.filter_congr fun x _ => contains_eq_decide small x
  · rw [BTree.intersect, SquaredBreak.intersect]
    exact List.filter_congr fun x _ =>
      Bool.eq_iff_iff.mpr ((contains_iff.trans (mem_btreeFromIter small)).trans
        contains_iff.symm)
  · rw [Binary.intersect, SquaredBreak.intersect]
    refine List.filter_congr fun x _ => ?_
    have h := binary_search_true_iff (pairwise_le_mergeSort small) x
    rw [mem_sortedSmall] at h
    exact Bool.eq_iff_iff.mpr (h.trans contains_iff.symm)
  · rw [Hash.intersect, SquaredBreak.intersect]
    exact List.filter_congr fun x _ =>
      Bool.eq_iff_iff.mpr ((contains_iff.trans (mem_hashFromIter small)).trans
        contains_iff.symm)

theorem collectOrPanic_eq_none {l : List (Option Product)} (h : none ∈ l) :
    collectOrPanic l = none := by
  induction l with
  | nil => cases h
  | cons o rest ih =>
    cases o with
    | none => rfl
    | some x =>
      rcases List.mem_cons.mp h with h1 | h2
      · exact Option.noConfusion h1
      · simp [collectOrPanic, ih h2]

/-- C2 counterexample: two measurements whose result vectors are equal
as sets (`[2, 2]` and `[2]` both have element set `{2}`) are reported
unequal by the final check, refuting "returns true if and only if every
adjacent pair is equal as sets". -/
theorem validator_rejects_set_equal_results :
    all_results_equal [⟨"Squared", 1, [2, 2]⟩, ⟨"Hash", 1, [2]⟩] = false
    ∧ ([2, 2] : List Nat).toFinset = ([2] : List Nat).toFinset := by
  constructor
  · rfl
  · decide

/-- C2 amended: the check returns true iff every adjacent pair of
measurements has *identical* result vectors (order- and
multiplicity-sensitive raw comparison, not set comparison); a strategy
returning an extra spurious element therefore still yields false. -/
theorem validator_compares_raw_vectors :
    (∀ ps : List Product,
      all_results_equal ps = true ↔ List.Chain' (fun x y => x.result = y.result) ps)
    ∧ all_results_equal [⟨"A", 1, [3, 4]⟩, ⟨"B", 1, [3, 4, 9]⟩] = false := by
  constructor
  · intro ps
    induction ps with
    | nil => simp [all_results_equal]
    | cons x rest ih =>
      cases rest with
      | nil => simp [all_results_equal]
      | cons y rest2 =>
        simp only [all_results_equal, Bool.and_eq_true, beq_iff_eq,
          List.chain'_cons, ih]
  · rfl

/-- C3 counterexample: with a clock that runs backwards during the
fourth measurement, the whole measurement phase evaluates to `none`
(the `unwrap` in `test_method` panics and the panic propagates through
the parallel `collect`), refuting "aborts only that single measurement;
the run as a whole does not crash and the remaining measurements still
complete". -/
theorem clock_anomaly_crashes_whole_run :
    runBenchmark [] [] (fun i => if i = 3 then (5, 2) else (0, 1)) = none := by
  rfl

/-- C3 amended: when the clock reports a negative elapsed delta for any
one of the ten strategy invocations, `duration_since(start).unwrap()`
panics inside `test_method` and the whole measurement phase aborts — no
measurement list is produced at all, rather than only that measurement
being dropped. -/
theorem clock_anomaly_aborts_whole_run (a b : List Nat)
    (clock : Nat → Nat × Nat) (i : Nat) (hi : i < 10)
    (hneg : (clock i).2 < (clock i).1) :
    runBenchmark a b clock = none := by
  rw [runBenchmark]
  apply collectOrPanic_eq_none
  simp only [tasks, methods, List.flatMap_cons, List.flatMap_nil,
    List.append_nil, List.cons_append, List.nil_append, withClock]
  interval_cases i <;>
    simp [test_method, duration_since, hneg, List.mem_cons]

/-- Witness for the C3 amended theorem at a concrete input. -/
theorem clock_anomaly_aborts_whole_run_witness :
    runBenchmark [7] [7, 8] (fun _ => (4, 1)) = none :=
  clock_anomaly_aborts_whole_run [7] [7, 8] (fun _ => (4, 1)) 0
    (by decide) (by decide)

/-- C5: the orchestrator designates the longer collection as `big` and
the shorter as `small` (Rust's `max_by_key`/`min_by_key` pick `b`/`a`
respectively on ties) and produces exactly two measurements per
strategy — `(big, small)` under the strategy's name and `(small, big)`
under the name followed by " switched order" — ten measurements in all,
in method order. -/
theorem orchestrator_produces_ten_measurements (a b : List Nat)
    (clock : Nat → Nat × Nat) (h : ∀ i, i < 10 → (clock i).1 ≤ (clock i).2) :
    runBenchmark a b clock = some (
      let big := if b.length < a.length then a else b
      let small := if b.length < a.length then b else a
      [⟨"Squared", (clock 0).2 - (clock 0).1, Squared.intersect big small⟩,
       ⟨"Squared switched order", (clock 1).2 - (clock 1).1,
         Squared.intersect small big⟩,
       ⟨"SquaredBreak", (clock 2).2 - (clock 2).1,
         SquaredBreak.intersect big small⟩,
       ⟨"SquaredBreak switched order", (clock 3).2 - (clock 3).1,
         SquaredBreak.intersect small big⟩,
       ⟨"BTree", (clock 4).2 - (clock 4).1, BTree.intersect big small⟩,
       ⟨"BTree switched order", (clock 5).2 - (clock 5).1,
         BTree.intersect small big⟩,
       ⟨"Binary", (clock 6).2 - (clock 6).1, Binary.intersect big small⟩,
       ⟨"Binary switched order", (clock 7).2 - (clock 7).1,
         Binary.intersect small big⟩,
       ⟨"Hash", (clock 8).2 - (clock 8).1, Hash.intersect big small⟩,
       ⟨"Hash switched order", (clock 9).2 - (clock 9).1,
         Hash.intersect small big⟩]) := by
  have h0 := Nat.not_lt.mpr (h 0 (by norm_num))
  have h1 := Nat.not_lt.mpr (h 1 (by norm_num))
  have h2 := Nat.not_lt.mpr (h 2 (by norm_num))
  have h3 := Nat.not_lt.mpr (h 3 (by norm_num))
  have h4 := Nat.not_lt.mpr (h 4 (by norm_num))
  have h5 := Nat.not_lt.mpr (h 5 (by norm_num))
  have h6 := Nat.not_lt.mpr (h 6 (by norm_num))
  have h7 := Nat.not_lt.mpr (h 7 (by norm_num))
  have h8 := Nat.not_lt.mpr (h 8 (by norm_num))
  have h9 := Nat.not_lt.mpr (h 9 (by norm_num))
  simp only [runBenchmark, tasks, methods, List.flatMap_cons, List.flatMap_nil,
    List.append_nil, List.cons_append, List.nil_append, withClock,
    test_method, duration_since, Strategy.name, Strategy.intersect,
    collectOrPanic]
  norm_num [h0, h1, h2, h3, h4, h5, h6, h7, h8, h9, collectOrPanic]
  exact ⟨rfl, rfl, rfl, rfl, rfl⟩

/-- Witness for the C5 theorem at a concrete input. -/
theorem orchestrator_produces_ten_measurements_witness :
    runBenchmark [] [1] (fun _ => (0, 1)) = some
      [⟨"Squared", 1, []⟩, ⟨"Squared switched order", 1, []⟩,
       ⟨"SquaredBreak", 1, []⟩, ⟨"SquaredBreak switched order", 1, []⟩,
       ⟨"BTree", 1, []⟩, ⟨"BTree switched order", 1, []⟩,
       ⟨"Binary", 1, []⟩, ⟨"Binary switched order", 1, []⟩,
       ⟨"Hash", 1, []⟩, ⟨"Hash switched order", 1, []⟩] := by
  rw [orchestrator_produces_ten_measurements [] [1] (fun _ => (0, 1))
    (fun i _ => Nat.zero_le 1)]
  norm_num [Squared.intersect, SquaredBreak.intersect, BTree.intersect,
    Binary.intersect, Hash.intersect, btreeFromIter, hashFromIter,
    binary_search_nil]

/-- C6: in the comparison table, each row after the first shows the
speedup `prev.time / this.time` of the adjacent next-slower row,
rendered to two decimals with an "x" suffix, and for the 300ns / 200ns /
100ns scenario the second row shows "1.50x", the third "2.00x" and the
Total row "3.00x" (the Total speedup being `first.time / last.time`). -/
theorem table_speedup_columns :
    (∀ ps : List Product,
      (windowRows ps).map (fun r => r.getD 2 "") =
        (ps.zip ps.tail).map fun q => fmt2 q.1.time q.2.time ++ "x")
    ∧ print_table_rows [⟨"X", 300, []⟩, ⟨"Y", 200, []⟩, ⟨"Z", 100, []⟩] =
        some [headerRow,
          ["X", "300ns", "-", "-", "-", "-"],
          ["Y", "200ns", "1.50x", "100ns", "66.67%", "X"],
          ["Z", "100ns", "2.00x", "100ns", "50.00%", "Y"],
          ["Total", "600ns", "3.00x", "200ns", "33.33%", "-"]] := by
  constructor
  · intro ps
    induction ps with
    | nil => rfl
    | cons x rest ih =>
      cases rest with
      | nil => rfl
      | cons y rest2 =>
        have hw : windowRows (x :: y :: rest2) =
            [y.name, fmtDuration y.time, fmt2 x.time y.time ++ "x",
             fmtDuration (x.time - y.time), fmt2 (y.time * 100) x.time ++ "%",
             x.name] :: windowRows (y :: rest2) := rfl
        rw [hw, List.map_cons, ih]
        rfl
  · rfl

/-- C9 counterexample: when the terminal column count is unavailable,
`size().unwrap()` panics and `print_graph` faults instead of falling
back to a default width. -/
theorem graph_faults_without_terminal_size :
    print_graph_width none [⟨"Squared", 1, []⟩] = none := rfl

/-- C9 amended: when the terminal column count is unavailable from the
environment, `print_graph` panics on the `unwrap` — there is no fallback
width and the run fails rather than completing. -/
theorem graph_requires_terminal_size (ps : List Product) :
    print_graph_width none ps = none := by
  unfold print_graph_width
  cases (ps.map fun p => p.name.length).max? <;> rfl

end CompareTimes
